import Mathlib

/-!
Verification of the configuration-templating core of
`flytekitplugins/awssagemaker_inference/boto3_mixin.py`.

The Python module works on plain Python values (strings, ints, lists,
dicts, None).  We embed those values as the inductive type `Val` below
(mutually with well-typed lists of values and dict entry lists, so that
all recursions are structural and all definitions compute).  Python
dict insertion order is the order of the entry list; dicts obtained
from Python can never contain a duplicate key.

Fallible Python code (code that can raise) is embedded as
`Except String _`, the error string holding the exception message.
-/

/-- Left brace character, written via its code point. -/
def lbrace : Char := Char.ofNat 123

/-- Right brace character, written via its code point. -/
def rbrace : Char := Char.ofNat 125

/-- Single-quote character used by Python `repr` of strings. -/
def squote : Char := Char.ofNat 39

/-- The dot separating keys in a dotted placeholder path. -/
def dotChar : Char := '.'

mutual
/-- A Python value as handled by `update_dict_fn`: `None`, `str`, `int`,
`list` or `dict` (with string keys, in insertion order). -/
inductive Val where
  | vnone : Val
  | vstr (s : String) : Val
  | vint (n : Int) : Val
  | vlist (xs : ValList) : Val
  | vdict (m : EntryList) : Val
deriving DecidableEq

/-- A Python list of values. -/
inductive ValList where
  | nil : ValList
  | cons (v : Val) (rest : ValList) : ValList
deriving DecidableEq

/-- The entries of a Python dict with string keys, in insertion order. -/
inductive EntryList where
  | nil : EntryList
  | cons (k : String) (v : Val) (rest : EntryList) : EntryList
deriving DecidableEq
end

/-- Convert an embedded Python list to a Lean list. -/
def ValList.toList : ValList → List Val
  | ValList.nil => []
  | ValList.cons v rest => v :: rest.toList

/-- Convert embedded dict entries to a Lean association list. -/
def EntryList.toList : EntryList → List (String × Val)
  | EntryList.nil => []
  | EntryList.cons k v rest => (k, v) :: rest.toList

/-- Comma-and-space join used by the Python renderings. -/
def joinComma (l : List String) : String := String.intercalate ", " l

mutual
/-- Python `repr` of a value, for the simple strings appearing here
(no quote or escape characters inside string values). -/
def pyRepr : Val → String
  | Val.vnone => "None"
  | Val.vstr s => String.singleton squote ++ s ++ String.singleton squote
  | Val.vint n => toString n
  | Val.vlist xs => "[" ++ joinComma (pyReprElems xs) ++ "]"
  | Val.vdict m => String.singleton lbrace ++ joinComma (pyReprEntries m) ++ String.singleton rbrace

/-- Python `repr` of each element of a list. -/
def pyReprElems : ValList → List String
  | ValList.nil => []
  | ValList.cons v rest => pyRepr v :: pyReprElems rest

/-- Python `repr` of each `key: value` entry of a dict. -/
def pyReprEntries : EntryList → List String
  | EntryList.nil => []
  | EntryList.cons k v rest =>
      (String.singleton squote ++ k ++ String.singleton squote ++ ": " ++ pyRepr v)
        :: pyReprEntries rest
end

/-- Python `str` of a value: a string is itself, every other value
renders as its `repr`. -/
def pyStr : Val → String
  | Val.vstr s => s
  | v => pyRepr v

/-- Python type name of a value, as used in `TypeError` messages. -/
def pyTypeName : Val → String
  | Val.vnone => "NoneType"
  | Val.vstr _ => "str"
  | Val.vint _ => "int"
  | Val.vlist _ => "list"
  | Val.vdict _ => "dict"

/-- Python `<=` on strings: lexicographic comparison of code points. -/
def lexLe : List Char → List Char → Bool
  | [], _ => true
  | _ :: _, [] => false
  | a :: as, b :: bs => if a < b then true else if b < a then false else lexLe as bs

/-- The comparison used when sorting rendered pairs by their first
component (a Python string). -/
def pairLe (a b : String × String) : Prop := lexLe a.1.data b.1.data = true

instance pairLe.instDecidableRel : DecidableRel pairLe :=
  fun a b => inferInstanceAs (Decidable (lexLe a.1.data b.1.data = true))

mutual
/-- Embedding of `sorted_dict_str`:
dicts render as `{k: v, ...}` with entries sorted by key
(Python `sorted(d.items())` compares the key tuple component first and
dict keys are distinct, so it sorts by key; the sort is stable, so
sorting the `(key, rendered value)` pairs by key is the same as
sorting the items and then rendering each);
lists render as `[x, ...]` with elements sorted by the Python string
form `str(x)` (again stable, so sorting `(str(x), rendered x)` pairs
by first component matches Python);
every other value renders as `str(d)`.
The Python code renders a dict key through `sorted_dict_str`, which for
a string key returns the key itself, so keys appear bare. -/
def sorted_dict_str : Val → String
  | Val.vdict m =>
      String.singleton lbrace
        ++ joinComma ((List.insertionSort pairLe (sdsEntries m)).map
              (fun p => p.1 ++ ": " ++ p.2))
        ++ String.singleton rbrace
  | Val.vlist xs =>
      "[" ++ joinComma ((List.insertionSort pairLe (sdsElems xs)).map Prod.snd) ++ "]"
  | v => pyStr v

/-- The `(key, sorted_dict_str value)` pairs of a dict, in insertion order. -/
def sdsEntries : EntryList → List (String × String)
  | EntryList.nil => []
  | EntryList.cons k v rest => (k, sorted_dict_str v) :: sdsEntries rest

/-- The `(str x, sorted_dict_str x)` pairs of a list, in original order. -/
def sdsElems : ValList → List (String × String)
  | ValList.nil => []
  | ValList.cons v rest => (pyStr v, sorted_dict_str v) :: sdsElems rest
end

/-- Scanner state machine equivalent to `re.findall(r"\{([^}]+)\}", s)`:
outside a capture, a left brace opens a capture; inside a capture every
character other than a right brace (left braces included) is captured;
a right brace closing a nonempty capture emits it, a right brace after
an empty capture emits nothing (the regex requires at least one
captured character); an unterminated capture emits nothing. -/
def findallAux : Option (List Char) → List Char → List (List Char)
  | _, [] => []
  | none, c :: rest =>
      if c = lbrace then findallAux (some []) rest else findallAux none rest
  | some acc, c :: rest =>
      if c = rbrace then
        if acc = [] then findallAux none rest else acc :: findallAux none rest
      else findallAux (some (acc ++ [c])) rest

/-- All placeholder bodies found in a string, leftmost first. -/
def findall (l : List Char) : List (List Char) := findallAux none l

/-- Python `s.split(".")`: split at every dot, keeping empty pieces. -/
def splitOnDot : List Char → List (List Char)
  | [] => [[]]
  | c :: rest =>
      if c = dotChar then [] :: splitOnDot rest
      else (c :: (splitOnDot rest).headD []) :: (splitOnDot rest).tail

/-- Join key pieces with dots, inverse of `splitOnDot` on dot-free
pieces; `joinDots (splitOnDot m) = m` is not needed, only the converse. -/
def joinDots : List (List Char) → List Char
  | [] => []
  | [k] => k
  | k :: rest => k ++ dotChar :: joinDots rest

/-- Worker for `replaceList`: when the skip counter is positive the
character belongs to an occurrence that was already replaced and is
dropped; at zero, an occurrence of the pattern starting here is
replaced and the rest of the occurrence is skipped. -/
def replaceGo (old new : List Char) : Nat → List Char → List Char
  | _, [] => []
  | Nat.succ k, _ :: rest => replaceGo old new k rest
  | 0, c :: rest =>
      if old.isPrefixOf (c :: rest) then new ++ replaceGo old new (old.length - 1) rest
      else c :: replaceGo old new 0 rest

/-- Python `s.replace(old, new)`: replace all non-overlapping
occurrences of `old`, left to right, without rescanning replacements.
All patterns used by the source are nonempty; the empty-pattern guard
only protects termination. -/
def replaceList (s old new : List Char) : List Char :=
  if old = [] then s else replaceGo old new 0 s

/-- Python `s[:k]` on strings: a negative bound counts from the end,
and a bound that is still negative after that adjustment gives the
empty string. -/
def pySliceTo (s : List Char) (k : Int) : List Char :=
  let k2 : Int := if k < 0 then k + s.length else k
  s.take k2.toNat

/-- Python dict indexing on the embedded entries. -/
def entryLookup : EntryList → String → Option Val
  | EntryList.nil, _ => none
  | EntryList.cons k v rest, key => if k = key then some v else entryLookup rest key

/-- One step `update_dict_copy[key]` of the dotted-path traversal:
indexing anything other than a dict that holds the key raises
(`KeyError` or `TypeError`), which the source catches uniformly. -/
def getItem : Val → String → Option Val
  | Val.vdict m, key => entryLookup m key
  | _, _ => none

/-- The `ValueError` message the source raises for a failed step of the
dotted-path traversal (the f-string renders the partially traversed
structure with `str`). -/
def keyErrorMsg (key : String) (cur : Val) : String :=
  "Could not find the key " ++ key ++ " in " ++ pyStr cur ++ "."

/-- The dotted-path traversal loop `for key in keys: update_dict_copy =
update_dict_copy[key]`, with the failure of any step converted to the
`ValueError` of the source. -/
def traversePath : Val → List String → Except String Val
  | cur, [] => Except.ok cur
  | cur, key :: ks =>
      match getItem cur key with
      | some v => traversePath v ks
      | none => Except.error (keyErrorMsg key cur)

/-- The `TypeError` Python raises when `str.replace` gets a non-string
replacement, which happens when an embedded dotted placeholder resolves
to a non-string value.  This exception is not caught by the source. -/
def replaceTypeError (v : Val) : String :=
  "replace() argument 2 must be str, not " ++ pyTypeName v

/-- The literal pattern `"\x7bidempotence_token\x7d"`. -/
def idemPattern : List Char := lbrace :: ("idempotence_token".data ++ [rbrace])

/-- The `for match in matches:` loop of `update_dict_fn` over a string
value, carrying the evolving string.  A dotted match traverses the
lookup table; if the whole current string is exactly that placeholder
the resolved value is returned as-is, otherwise the resolved value is
spliced in with `str.replace` (raising `TypeError` unless it is a
string).  The reserved match `idempotence_token` with a truthy token
splices the token, truncating it with `token[:63 - len(rest)]` when the
spliced string would exceed 63 characters.  Any other match leaves the
string unchanged. -/
def processMatches (u : EntryList) (tok : Option String) :
    List (List Char) → List Char → Except String Val
  | [], s => Except.ok (Val.vstr ⟨s⟩)
  | m :: ms, s =>
      if dotChar ∈ m then
        let keys := (splitOnDot m).map (fun kc => (⟨kc⟩ : String))
        match traversePath (Val.vdict u) keys with
        | Except.error e => Except.error e
        | Except.ok v =>
            if s = lbrace :: (m ++ [rbrace]) then Except.ok v
            else
              match v with
              | Val.vstr vs =>
                  processMatches u tok ms (replaceList s (lbrace :: (m ++ [rbrace])) vs.data)
              | _ => Except.error (replaceTypeError v)
      else if (⟨m⟩ : String) = "idempotence_token" then
        match tok with
        | some t =>
            if t = "" then processMatches u tok ms s
            else
              let temp := replaceList s idemPattern t.data
              if temp.length > 63 then
                let kept : Int := (63 : Int) - (replaceList s idemPattern []).length
                processMatches u tok ms (replaceList s idemPattern (pySliceTo t.data kept))
              else processMatches u tok ms temp
        | none => processMatches u tok ms s
      else processMatches u tok ms s

mutual
/-- Embedding of `update_dict_fn(original_dict, update_dict,
idempotence_token)`.  `None` and values of other scalar types are
returned unchanged; a string containing both braces has its placeholder
matches processed; a list maps the function over its elements; a dict
maps the function over its values (keys unchanged, insertion order
kept).  Exceptions propagate. -/
def update_dict_fn : Val → EntryList → Option String → Except String Val
  | Val.vnone, _, _ => Except.ok Val.vnone
  | Val.vstr s, u, tok =>
      if lbrace ∈ s.data ∧ rbrace ∈ s.data then processMatches u tok (findall s.data) s.data
      else Except.ok (Val.vstr s)
  | Val.vint n, _, _ => Except.ok (Val.vint n)
  | Val.vlist xs, u, tok =>
      match updateElems xs u tok with
      | Except.ok ys => Except.ok (Val.vlist ys)
      | Except.error e => Except.error e
  | Val.vdict m, u, tok =>
      match updateEntries m u tok with
      | Except.ok m2 => Except.ok (Val.vdict m2)
      | Except.error e => Except.error e

/-- The list branch: `[update_dict_fn(item, ...) for item in original_dict]`. -/
def updateElems : ValList → EntryList → Option String → Except String ValList
  | ValList.nil, _, _ => Except.ok ValList.nil
  | ValList.cons v rest, u, tok =>
      match update_dict_fn v u tok with
      | Except.error e => Except.error e
      | Except.ok v2 =>
          match updateElems rest u tok with
          | Except.error e => Except.error e
          | Except.ok r2 => Except.ok (ValList.cons v2 r2)

/-- The dict branch: assign `update_dict_fn` of every value back to its
key, in insertion order. -/
def updateEntries : EntryList → EntryList → Option String → Except String EntryList
  | EntryList.nil, _, _ => Except.ok EntryList.nil
  | EntryList.cons k v rest, u, tok =>
      match update_dict_fn v u tok with
      | Except.error e => Except.error e
      | Except.ok v2 =>
          match updateEntries rest u tok with
          | Except.error e => Except.error e
          | Except.ok r2 => Except.ok (EntryList.cons k v2 r2)
end

mutual
/-- No string anywhere in the value contains a dotted placeholder
match.  After one substitution pass this is the formal content of "no
self-referential placeholders": with no idempotency token supplied, the
substitution only acts on dotted matches, so such a value is a fixed
point. -/
def noDottedV : Val → Bool
  | Val.vnone => true
  | Val.vint _ => true
  | Val.vstr s => (findall s.data).all (fun m => decide (dotChar ∉ m))
  | Val.vlist xs => noDottedElems xs
  | Val.vdict m => noDottedEntries m

/-- `noDottedV` on every element of a list. -/
def noDottedElems : ValList → Bool
  | ValList.nil => true
  | ValList.cons v rest => noDottedV v && noDottedElems rest

/-- `noDottedV` on every value of a dict. -/
def noDottedEntries : EntryList → Bool
  | EntryList.nil => true
  | EntryList.cons _ v rest => noDottedV v && noDottedEntries rest
end

/-- The static region-to-account lookup table of the source module. -/
def account_id_map : List (String × String) :=
  [("us-east-1", "785573368785"),
   ("us-east-2", "007439368137"),
   ("us-west-1", "710691900526"),
   ("us-west-2", "301217895009"),
   ("eu-west-1", "802834080501"),
   ("eu-west-2", "205493899709"),
   ("eu-west-3", "254080097072"),
   ("eu-north-1", "601324751636"),
   ("eu-south-1", "966458181534"),
   ("eu-central-1", "746233611703"),
   ("ap-east-1", "110948597952"),
   ("ap-south-1", "763008648453"),
   ("ap-northeast-1", "941853720454"),
   ("ap-northeast-2", "151534178276"),
   ("ap-southeast-1", "324986816169"),
   ("ap-southeast-2", "355873309152"),
   ("cn-northwest-1", "474822919863"),
   ("cn-north-1", "472730292857"),
   ("sa-east-1", "756306329178"),
   ("ca-central-1", "464438896020"),
   ("me-south-1", "836785723513"),
   ("af-south-1", "774647643957")]

/-- Python truthiness of the embedded values. -/
def pyTruthyV : Val → Bool
  | Val.vnone => false
  | Val.vstr s => !(s == "")
  | Val.vint n => !(n == 0)
  | Val.vlist ValList.nil => false
  | Val.vlist _ => true
  | Val.vdict EntryList.nil => false
  | Val.vdict _ => true

/-- Python `a or b`: `a` when truthy, otherwise `b`. -/
def pyOr (a b : Val) : Val := if pyTruthyV a then a else b

/-- An `Optional[str]` argument seen as a Python value. -/
def optStrV : Option String → Val
  | none => Val.vnone
  | some s => Val.vstr s

/-- Python substring test `pat in s`. -/
def listIsInfix (pat : List Char) : List Char → Bool
  | [] => pat.isPrefixOf []
  | c :: rest => pat.isPrefixOf (c :: rest) || listIsInfix pat rest

/-- Rewrite of one image reference by `_call`: when the image string
contains the vendor marker, `str.format` resolves its `account_id`,
`region` and `base` fields (an unknown region raises `KeyError`);
otherwise the image is kept as-is. -/
def rewriteImage (final_region base : String) (image : String) : Except String String :=
  if listIsInfix "sagemaker-tritonserver".data image.data then
    match List.lookup final_region account_id_map with
    | some acct =>
        Except.ok ⟨replaceList
          (replaceList
            (replaceList image.data (lbrace :: ("account_id".data ++ [rbrace])) acct.data)
            (lbrace :: ("region".data ++ [rbrace])) final_region.data)
          (lbrace :: ("base".data ++ [rbrace])) base.data⟩
    | none => Except.error ("KeyError: " ++ String.singleton squote ++ final_region ++ String.singleton squote)
  else Except.ok image

/-- The image-rewriting dict comprehension of `_call`, in order. -/
def rewriteImages (final_region base : String) :
    List (String × String) → Except String (List (String × String))
  | [] => Except.ok []
  | (name, img) :: rest =>
      match rewriteImage final_region base img with
      | Except.error e => Except.error e
      | Except.ok img2 =>
          match rewriteImages final_region base rest with
          | Except.error e => Except.error e
          | Except.ok r2 => Except.ok ((name, img2) :: r2)

/-- A string-to-string dict as an embedded Python dict value. -/
def imagesToEntries : List (String × String) → EntryList
  | [] => EntryList.nil
  | (k, v) :: rest => EntryList.cons k (Val.vstr v) (imagesToEntries rest)

/-- Append of dict entries, for successive insertions into `args`. -/
def entryAppend : EntryList → EntryList → EntryList
  | EntryList.nil, e => e
  | EntryList.cons k v rest, e => EntryList.cons k v (entryAppend rest e)

/-- Embedding of `Boto3AgentMixin._call` up to (and excluding) the
network call: build `args` from the decoded inputs, resolve the region
from the inputs entry, the call argument and the constructor default in
that order by Python truthiness and fail with the source's
`ValueError` when all are falsy, rewrite the images, substitute the
config, and when the substituted config still mentions
`idempotence_token` hash its canonical form (`hashFn` standing for the
external `xxhash.xxh64(...).hexdigest()`) and substitute again with
that hash as the idempotency token.  Returns the final config and the
hash (empty when no idempotency placeholder was present).  The decoding
of the typed inputs (`literal_map_string_repr`) is external; its result
is the `inputsMap` argument. -/
def call_prepare (hashFn : String → String) (self_region : Option String)
    (config : Val) (inputsMap : Option EntryList)
    (images : Option (List (String × String))) (region : Option String) :
    Except String (Val × String) :=
  let args0 : EntryList :=
    match inputsMap with
    | some m => EntryList.cons "inputs" (Val.vdict m) EntryList.nil
    | none => EntryList.nil
  let input_region : Val :=
    match inputsMap with
    | some m => (entryLookup m "region").getD Val.vnone
    | none => Val.vnone
  let finalV : Val := pyOr input_region (pyOr (optStrV region) (optStrV self_region))
  if pyTruthyV finalV then
    match finalV with
    | Val.vstr final_region =>
        let argsE : Except String EntryList :=
          match images with
          | none => Except.ok args0
          | some imgs =>
              if imgs.isEmpty then Except.ok args0
              else
                let base : String :=
                  if "cn-".data.isPrefixOf final_region.data then "amazonaws.com.cn"
                  else "amazonaws.com"
                match rewriteImages final_region base imgs with
                | Except.error e => Except.error e
                | Except.ok imgs2 =>
                    Except.ok (entryAppend args0
                      (EntryList.cons "images" (Val.vdict (imagesToEntries imgs2)) EntryList.nil))
        match argsE with
        | Except.error e => Except.error e
        | Except.ok args =>
            match update_dict_fn config args none with
            | Except.error e => Except.error e
            | Except.ok updated =>
                if listIsInfix "idempotence_token".data (pyStr updated).data then
                  match update_dict_fn updated args (some (hashFn (sorted_dict_str updated))) with
                  | Except.error e => Except.error e
                  | Except.ok updated2 => Except.ok (updated2, hashFn (sorted_dict_str updated))
                else Except.ok (updated, "")
    | _ => Except.error "AttributeError: startswith"
  else Except.error "Region parameter is required."

/-! ### Helper lemmas -/

theorem string_eq_of_data {a b : String} (h : a.data = b.data) : a = b := by
  cases a; cases b; exact congrArg String.mk h

theorem lexLe_cons_iff (x y : Char) (xs ys : List Char) :
    lexLe (x :: xs) (y :: ys) = true ↔ x < y ∨ (x = y ∧ lexLe xs ys = true) := by
  by_cases h1 : x < y
  · simp [lexLe, h1]
  · by_cases h2 : y < x
    · constructor
      · intro h; simp [lexLe, h1, h2] at h
      · rintro (h | ⟨rfl, h⟩)
        · exact absurd h h1
        · exact absurd h2 h1
    · have hxy : x = y := le_antisymm (not_lt.mp h2) (not_lt.mp h1)
      simp [lexLe, h1, h2, hxy]

theorem lexLe_total : ∀ a b : List Char, lexLe a b = true ∨ lexLe b a = true := by
  intro a
  induction a with
  | nil => intro b; left; rfl
  | cons c cs ih =>
    intro b
    cases b with
    | nil => right; rfl
    | cons d ds =>
      rcases lt_trichotomy c d with h | h | h
      · left; rw [lexLe_cons_iff]; exact Or.inl h
      · rcases ih ds with h2 | h2
        · left; rw [lexLe_cons_iff]; exact Or.inr ⟨h, h2⟩
        · right; rw [lexLe_cons_iff]; exact Or.inr ⟨h.symm, h2⟩
      · right; rw [lexLe_cons_iff]; exact Or.inl h

theorem lexLe_trans : ∀ a b c : List Char,
    lexLe a b = true → lexLe b c = true → lexLe a c = true := by
  intro a
  induction a with
  | nil => intro b c _ _; rfl
  | cons x xs ih =>
    intro b c hab hbc
    cases b with
    | nil => simp [lexLe] at hab
    | cons y ys =>
      cases c with
      | nil => simp [lexLe] at hbc
      | cons z zs =>
        rw [lexLe_cons_iff] at hab hbc ⊢
        rcases hab with h1 | ⟨rfl, h1⟩
        · rcases hbc with h2 | ⟨rfl, h2⟩
          · exact Or.inl (lt_trans h1 h2)
          · exact Or.inl h1
        · rcases hbc with h2 | ⟨rfl, h2⟩
          · exact Or.inl h2
          · exact Or.inr ⟨rfl, ih _ _ h1 h2⟩

theorem lexLe_antisymm : ∀ a b : List Char,
    lexLe a b = true → lexLe b a = true → a = b := by
  intro a
  induction a with
  | nil =>
    intro b _ hba
    cases b with
    | nil => rfl
    | cons d ds => simp [lexLe] at hba
  | cons c cs ih =>
    intro b hab hba
    cases b with
    | nil => simp [lexLe] at hab
    | cons d ds =>
      rw [lexLe_cons_iff] at hab hba
      rcases hab with h1 | ⟨rfl, h1⟩
      · rcases hba with h2 | ⟨h2, _⟩
        · exact absurd (lt_trans h1 h2) (lt_irrefl _)
        · exact absurd h1 (h2 ▸ lt_irrefl _)
      · rcases hba with h2 | ⟨_, h2⟩
        · exact absurd h2 (lt_irrefl _)
        · rw [ih ds h1 h2]

theorem findallAux_skip (l1 l2 : List Char) (h : ∀ c ∈ l1, c ≠ lbrace) :
    findallAux none (l1 ++ l2) = findallAux none l2 := by
  induction l1 with
  | nil => rfl
  | cons c cs ih =>
    have hc : c ≠ lbrace := h c (List.mem_cons_self c cs)
    simp only [List.cons_append, findallAux, if_neg hc]
    exact ih (fun d hd => h d (List.mem_cons_of_mem c hd))

theorem findallAux_none_of_no_lbrace (l : List Char) (h : ∀ c ∈ l, c ≠ lbrace) :
    findallAux none l = [] := by
  have := findallAux_skip l [] h
  simpa using this

theorem findallAux_capture (mid : List Char) :
    ∀ (acc post : List Char), (∀ c ∈ mid, c ≠ rbrace) → acc ++ mid ≠ [] →
    findallAux (some acc) (mid ++ rbrace :: post) = (acc ++ mid) :: findallAux none post := by
  induction mid with
  | nil =>
    intro acc post _ hne
    rw [List.append_nil] at hne
    simp [findallAux, hne]
  | cons c cs ih =>
    intro acc post hfree hne
    have hc : c ≠ rbrace := hfree c (List.mem_cons_self c cs)
    simp only [List.cons_append, findallAux, if_neg hc]
    have h2 := ih (acc ++ [c]) post (fun d hd => hfree d (List.mem_cons_of_mem c hd))
      (by simp)
    have h3 : acc ++ c :: cs = acc ++ [c] ++ cs := by simp
    rw [h3]
    exact h2

theorem findall_single (pre m post : List Char)
    (hpre : ∀ c ∈ pre, c ≠ lbrace) (hm : ∀ c ∈ m, c ≠ rbrace) (hne : m ≠ [])
    (hpost : ∀ c ∈ post, c ≠ lbrace) :
    findall (pre ++ lbrace :: (m ++ rbrace :: post)) = [m] := by
  unfold findall
  rw [findallAux_skip pre _ hpre]
  have hstep : findallAux none (lbrace :: (m ++ rbrace :: post))
      = findallAux (some []) (m ++ rbrace :: post) := by
    simp [findallAux]
  rw [hstep]
  have h2 := findallAux_capture m [] post hm (by simpa using hne)
  simp only [List.nil_append] at h2
  rw [h2, findallAux_none_of_no_lbrace post hpost]

theorem isPrefixOf_append_self : ∀ (l t : List Char), l.isPrefixOf (l ++ t) = true := by
  intro l t
  induction l with
  | nil => simp [List.isPrefixOf]
  | cons c cs ih => simp [List.isPrefixOf, ih]

theorem head_eq_of_isPrefixOf {h c : Char} {tl rest : List Char}
    (hp : (h :: tl).isPrefixOf (c :: rest) = true) : h = c := by
  simp only [List.isPrefixOf, Bool.and_eq_true, beq_iff_eq] at hp
  exact hp.1

theorem replaceGo_skip (old new : List Char) :
    ∀ (l1 l2 : List Char), replaceGo old new l1.length (l1 ++ l2) = replaceGo old new 0 l2 := by
  intro l1
  induction l1 with
  | nil => intro l2; rfl
  | cons c cs ih =>
    intro l2
    simp only [List.length_cons, List.cons_append, replaceGo]
    exact ih l2

theorem replaceGo_no_occurrence (tl new : List Char) :
    ∀ (l : List Char), (∀ c ∈ l, c ≠ lbrace) → replaceGo (lbrace :: tl) new 0 l = l := by
  intro l
  induction l with
  | nil => intro _; rfl
  | cons c cs ih =>
    intro h
    have hc : c ≠ lbrace := h c (List.mem_cons_self c cs)
    have hnp : (lbrace :: tl).isPrefixOf (c :: cs) = false := by
      cases hb : (lbrace :: tl).isPrefixOf (c :: cs) with
      | false => rfl
      | true => exact absurd (head_eq_of_isPrefixOf hb).symm hc
    simp only [replaceGo, hnp, Bool.false_eq_true, if_false]
    rw [ih (fun d hd => h d (List.mem_cons_of_mem c hd))]

theorem replaceGo_splice (tl new : List Char) :
    ∀ (pre post : List Char), (∀ c ∈ pre, c ≠ lbrace) → (∀ c ∈ post, c ≠ lbrace) →
    replaceGo (lbrace :: tl) new 0 (pre ++ (lbrace :: tl) ++ post) = pre ++ new ++ post := by
  intro pre
  induction pre with
  | nil =>
    intro post _ hpost
    simp only [List.nil_append]
    have hp : (lbrace :: tl).isPrefixOf ((lbrace :: tl) ++ post) = true :=
      isPrefixOf_append_self _ _
    have hshape : (lbrace :: tl) ++ post = lbrace :: (tl ++ post) := by simp
    rw [hshape] at hp ⊢
    simp only [replaceGo, hp, if_true]
    have hlen : (lbrace :: tl).length - 1 = tl.length := by simp
    rw [hlen, replaceGo_skip _ _ tl post, replaceGo_no_occurrence _ _ post hpost]
  | cons c cs ih =>
    intro post hpre hpost
    have hc : c ≠ lbrace := hpre c (List.mem_cons_self c cs)
    have hnp : (lbrace :: tl).isPrefixOf (c :: (cs ++ (lbrace :: tl) ++ post)) = false := by
      cases hb : (lbrace :: tl).isPrefixOf (c :: (cs ++ (lbrace :: tl) ++ post)) with
      | false => rfl
      | true => exact absurd (head_eq_of_isPrefixOf hb).symm hc
    have hgoal : (c :: cs) ++ (lbrace :: tl) ++ post = c :: (cs ++ (lbrace :: tl) ++ post) := by
      simp
    rw [hgoal]
    simp only [replaceGo, hnp, Bool.false_eq_true, if_false]
    have := ih post (fun d hd => hpre d (List.mem_cons_of_mem c hd)) hpost
    rw [this]
    simp

theorem replaceList_splice (tl new pre post : List Char)
    (hpre : ∀ c ∈ pre, c ≠ lbrace) (hpost : ∀ c ∈ post, c ≠ lbrace) :
    replaceList (pre ++ (lbrace :: tl) ++ post) (lbrace :: tl) new = pre ++ new ++ post := by
  unfold replaceList
  rw [if_neg (by simp)]
  exact replaceGo_splice tl new pre post hpre hpost

theorem splitOnDot_ne_nil : ∀ l : List Char, splitOnDot l ≠ [] := by
  intro l
  cases l with
  | nil => simp [splitOnDot]
  | cons c cs => by_cases hc : c = dotChar <;> simp [splitOnDot, hc]

theorem splitOnDot_no_dot : ∀ l : List Char, dotChar ∉ l → splitOnDot l = [l] := by
  intro l
  induction l with
  | nil => intro _; rfl
  | cons c cs ih =>
    intro h
    have hc : c ≠ dotChar := fun e => h (e ▸ List.mem_cons_self c cs)
    have h2 : splitOnDot cs = [cs] := ih (fun e => h (List.mem_cons_of_mem c e))
    simp [splitOnDot, h2, hc]

theorem splitOnDot_append_dot (rest : List Char) :
    ∀ k : List Char, dotChar ∉ k →
    splitOnDot (k ++ dotChar :: rest) = k :: splitOnDot rest := by
  intro k
  induction k with
  | nil =>
    intro _
    simp [splitOnDot]
  | cons c cs ih =>
    intro h
    have hc : c ≠ dotChar := fun e => h (e ▸ List.mem_cons_self c cs)
    have h2 := ih (fun e => h (List.mem_cons_of_mem c e))
    simp [splitOnDot, h2, hc]

theorem splitOnDot_joinDots : ∀ ks : List (List Char), ks ≠ [] →
    (∀ k ∈ ks, dotChar ∉ k) → splitOnDot (joinDots ks) = ks := by
  intro ks
  induction ks with
  | nil => intro h _; exact absurd rfl h
  | cons k rest ih =>
    intro _ hfree
    cases rest with
    | nil =>
      exact splitOnDot_no_dot k (hfree k (List.mem_cons_self k []))
    | cons k2 t =>
      have hj : joinDots (k :: k2 :: t) = k ++ dotChar :: joinDots (k2 :: t) := rfl
      rw [hj, splitOnDot_append_dot _ k (hfree k (List.mem_cons_self k _))]
      rw [ih (by simp) (fun x hx => hfree x (List.mem_cons_of_mem k hx))]

theorem mem_joinDots : ∀ (ks : List (List Char)) (c : Char), c ∈ joinDots ks →
    c = dotChar ∨ ∃ k ∈ ks, c ∈ k := by
  intro ks
  induction ks with
  | nil => intro c hc; simp [joinDots] at hc
  | cons k rest ih =>
    intro c hc
    cases rest with
    | nil =>
      right; exact ⟨k, by simp, hc⟩
    | cons k2 t =>
      have hj : joinDots (k :: k2 :: t) = k ++ dotChar :: joinDots (k2 :: t) := rfl
      rw [hj] at hc
      rcases List.mem_append.mp hc with h | h
      · right; exact ⟨k, List.mem_cons_self k _, h⟩
      · rcases List.mem_cons.mp h with h2 | h2
        · exact Or.inl h2
        · rcases ih c h2 with h3 | ⟨k3, hk3, hck⟩
          · exact Or.inl h3
          · right; exact ⟨k3, List.mem_cons_of_mem k hk3, hck⟩

theorem dot_mem_joinDots (ks : List (List Char)) (h : 2 ≤ ks.length) :
    dotChar ∈ joinDots ks := by
  match ks, h with
  | k :: k2 :: t, _ =>
    have hj : joinDots (k :: k2 :: t) = k ++ dotChar :: joinDots (k2 :: t) := rfl
    rw [hj]
    exact List.mem_append.mpr (Or.inr (List.mem_cons_self _ _))

theorem traversePath_append_fail (k : String) (ks2 : List String) :
    ∀ (ks1 : List String) (cur v : Val),
    traversePath cur ks1 = Except.ok v → getItem v k = none →
    traversePath cur (ks1 ++ k :: ks2) = Except.error (keyErrorMsg k v) := by
  intro ks1
  induction ks1 with
  | nil =>
    intro cur v h1 h2
    have : cur = v := by simpa [traversePath] using h1
    subst this
    simp [traversePath, h2]
  | cons k1 t ih =>
    intro cur v h1 h2
    simp only [traversePath, List.cons_append] at h1 ⊢
    cases hg : getItem cur k1 with
    | none => rw [hg] at h1; simp at h1
    | some w =>
      rw [hg] at h1
      exact ih w v h1 h2

theorem processMatches_no_dotted (u : EntryList) :
    ∀ (ms : List (List Char)) (s : List Char), (∀ m ∈ ms, dotChar ∉ m) →
    processMatches u none ms s = Except.ok (Val.vstr ⟨s⟩) := by
  intro ms
  induction ms with
  | nil => intro s _; rfl
  | cons m t ih =>
    intro s h
    have hm : dotChar ∉ m := h m (List.mem_cons_self m t)
    have ht := ih s (fun x hx => h x (List.mem_cons_of_mem m hx))
    simp only [processMatches, if_neg hm]
    by_cases he : (⟨m⟩ : String) = "idempotence_token" <;> simp [he, ht]

theorem update_dict_fn_string_step (u : EntryList) (tok : Option String) (l : List Char)
    (h1 : lbrace ∈ l) (h2 : rbrace ∈ l) :
    update_dict_fn (Val.vstr ⟨l⟩) u tok = processMatches u tok (findall l) l := by
  simp only [update_dict_fn]
  rw [if_pos ⟨h1, h2⟩]

theorem joined_facts (ks : List String) (hlen : 2 ≤ ks.length)
    (hfree : ∀ key ∈ ks, dotChar ∉ key.data ∧ lbrace ∉ key.data ∧ rbrace ∉ key.data) :
    (∀ c ∈ joinDots (ks.map String.data), c ≠ rbrace) ∧
      joinDots (ks.map String.data) ≠ [] ∧
      dotChar ∈ joinDots (ks.map String.data) ∧
      (splitOnDot (joinDots (ks.map String.data))).map (fun kc => (⟨kc⟩ : String)) = ks := by
  have hdotmem : dotChar ∈ joinDots (ks.map String.data) :=
    dot_mem_joinDots _ (by simpa using hlen)
  refine ⟨?_, ?_, hdotmem, ?_⟩
  · intro c hc
    rcases mem_joinDots _ c hc with h | ⟨kd, hkd, hck⟩
    · subst h; decide
    · rcases List.mem_map.mp hkd with ⟨key, hkey, rfl⟩
      exact fun e => (hfree key hkey).2.2 (e ▸ hck)
  · exact List.ne_nil_of_mem hdotmem
  · have hsplit : splitOnDot (joinDots (ks.map String.data)) = ks.map String.data := by
      apply splitOnDot_joinDots
      · simpa using List.ne_nil_of_length_pos (by omega : 0 < ks.length)
      · intro kd hkd
        rcases List.mem_map.mp hkd with ⟨key, hkey, rfl⟩
        exact (hfree key hkey).1
    rw [hsplit, List.map_map]
    have hid : ((fun kc => (⟨kc⟩ : String)) ∘ String.data) = id := funext fun x => rfl
    rw [hid, List.map_id]

/-- C7 — a template that is exactly one dotted placeholder resolves to
the traversed value itself, whatever its type. -/
theorem c7_whole_placeholder_returns_typed_value
    (u : EntryList) (tok : Option String) (ks : List String) (v : Val)
    (hlen : 2 ≤ ks.length)
    (hfree : ∀ key ∈ ks, dotChar ∉ key.data ∧ lbrace ∉ key.data ∧ rbrace ∉ key.data)
    (htrav : traversePath (Val.vdict u) ks = Except.ok v) :
    update_dict_fn (Val.vstr ⟨lbrace :: (joinDots (ks.map String.data) ++ [rbrace])⟩) u tok
      = Except.ok v := by
  obtain ⟨hmr, hmne, hdot, hkeys⟩ := joined_facts ks hlen hfree
  rw [update_dict_fn_string_step u tok _ (List.mem_cons_self _ _)
    (List.mem_cons_of_mem _ (List.mem_append.mpr (Or.inr (List.mem_cons_self _ _))))]
  have hfind : findall (lbrace :: (joinDots (ks.map String.data) ++ [rbrace]))
      = [joinDots (ks.map String.data)] := by
    have h := findall_single [] _ [] (by simp) hmr hmne (by simp)
    simpa using h
  rw [hfind]
  simp [processMatches, if_pos hdot, hkeys, htrav]

/-- C2 — a dotted placeholder whose traversal fails at key `k` after
reaching partial structure `v` makes substitution fail with the
source's error message, which names `k` and renders `v`. -/
theorem c2_missing_key_raises_naming_key
    (u : EntryList) (tok : Option String)
    (ks1 : List String) (k : String) (ks2 : List String) (v : Val)
    (hlen : 2 ≤ (ks1 ++ k :: ks2).length)
    (hfree : ∀ key ∈ ks1 ++ k :: ks2,
      dotChar ∉ key.data ∧ lbrace ∉ key.data ∧ rbrace ∉ key.data)
    (htrav : traversePath (Val.vdict u) ks1 = Except.ok v)
    (hmiss : getItem v k = none) :
    update_dict_fn
      (Val.vstr ⟨lbrace :: (joinDots ((ks1 ++ k :: ks2).map String.data) ++ [rbrace])⟩) u tok
      = Except.error (keyErrorMsg k v) := by
  obtain ⟨hmr, hmne, hdot, hkeys⟩ := joined_facts (ks1 ++ k :: ks2) hlen hfree
  rw [update_dict_fn_string_step u tok _ (List.mem_cons_self _ _)
    (List.mem_cons_of_mem _ (List.mem_append.mpr (Or.inr (List.mem_cons_self _ _))))]
  have hfind : findall (lbrace :: (joinDots ((ks1 ++ k :: ks2).map String.data) ++ [rbrace]))
      = [joinDots ((ks1 ++ k :: ks2).map String.data)] := by
    have h := findall_single [] _ [] (by simp) hmr hmne (by simp)
    simpa using h
  rw [hfind]
  simp only [processMatches, if_pos hdot, hkeys]
  rw [traversePath_append_fail k ks2 ks1 _ v htrav hmiss]

/-- C3 (amended) — a dotted placeholder embedded in a longer string and
resolving to a string value is spliced in, the rest unchanged. -/
theorem c3_embedded_string_value_splices
    (u : EntryList) (tok : Option String) (ks : List String) (vs : String)
    (pre post : List Char)
    (hlen : 2 ≤ ks.length)
    (hfree : ∀ key ∈ ks, dotChar ∉ key.data ∧ lbrace ∉ key.data ∧ rbrace ∉ key.data)
    (hpre : ∀ c ∈ pre, c ≠ lbrace) (hpost : ∀ c ∈ post, c ≠ lbrace)
    (hne : pre ++ post ≠ [])
    (htrav : traversePath (Val.vdict u) ks = Except.ok (Val.vstr vs)) :
    update_dict_fn
      (Val.vstr ⟨pre ++ (lbrace :: (joinDots (ks.map String.data) ++ [rbrace])) ++ post⟩) u tok
      = Except.ok (Val.vstr ⟨pre ++ vs.data ++ post⟩) := by
  obtain ⟨hmr, hmne, hdot, hkeys⟩ := joined_facts ks hlen hfree
  set m := joinDots (ks.map String.data) with hmdef
  set l := pre ++ (lbrace :: (m ++ [rbrace])) ++ post with hl
  have hshape : l = pre ++ lbrace :: (m ++ rbrace :: post) := by simp [hl]
  have h1 : lbrace ∈ l := by
    rw [hshape]; exact List.mem_append.mpr (Or.inr (List.mem_cons_self _ _))
  have h2 : rbrace ∈ l := by
    rw [hshape]
    exact List.mem_append.mpr (Or.inr (List.mem_cons_of_mem _
      (List.mem_append.mpr (Or.inr (List.mem_cons_self _ _)))))
  rw [update_dict_fn_string_step u tok l h1 h2]
  have hfind : findall l = [m] := by
    rw [hshape]; exact findall_single pre m post hpre hmr hmne hpost
  rw [hfind]
  simp only [processMatches, if_pos hdot, hkeys, htrav]
  have h0 : 0 < pre.length + post.length := by
    rcases pre with _ | ⟨a, as⟩
    · rcases post with _ | ⟨b, bs⟩
      · exact absurd rfl hne
      · simp
    · simp
  have hneq : l ≠ lbrace :: (m ++ [rbrace]) := by
    intro he
    have hlen2 := congrArg List.length he
    simp only [hl, List.length_append, List.length_cons] at hlen2
    omega
  rw [if_neg hneq]
  show processMatches u tok [] (replaceList l (lbrace :: (m ++ [rbrace])) vs.data)
      = Except.ok (Val.vstr ⟨pre ++ vs.data ++ post⟩)
  have hrepl : replaceList l (lbrace :: (m ++ [rbrace])) vs.data = pre ++ vs.data ++ post := by
    rw [hl]
    exact replaceList_splice (m ++ [rbrace]) vs.data pre post hpre hpost
  rw [hrepl]
  rfl

theorem idem_truncation (u : EntryList) (t : String) (pre post : List Char)
    (hpre : ∀ c ∈ pre, c ≠ lbrace) (hpost : ∀ c ∈ post, c ≠ lbrace)
    (ht : t ≠ "")
    (hfit : pre.length + post.length ≤ 63)
    (hover : 63 < pre.length + t.data.length + post.length) :
    update_dict_fn (Val.vstr ⟨pre ++ idemPattern ++ post⟩) u (some t)
      = Except.ok (Val.vstr ⟨pre ++ t.data.take (63 - (pre.length + post.length)) ++ post⟩) := by
  set body := "idempotence_token".data with hbody
  set l := pre ++ idemPattern ++ post with hl
  have hpat : idemPattern = lbrace :: (body ++ [rbrace]) := rfl
  have hshape : l = pre ++ lbrace :: (body ++ rbrace :: post) := by
    simp [hl, hpat]
  have h1 : lbrace ∈ l := by
    rw [hshape]; exact List.mem_append.mpr (Or.inr (List.mem_cons_self _ _))
  have h2 : rbrace ∈ l := by
    rw [hshape]
    exact List.mem_append.mpr (Or.inr (List.mem_cons_of_mem _
      (List.mem_append.mpr (Or.inr (List.mem_cons_self _ _)))))
  rw [update_dict_fn_string_step u (some t) l h1 h2]
  have hfind : findall l = [body] := by
    rw [hshape]
    exact findall_single pre body post hpre (by decide) (by decide) hpost
  rw [hfind]
  have hnodot : ¬ dotChar ∈ body := by decide
  have hname : (⟨body⟩ : String) = "idempotence_token" := rfl
  simp only [processMatches, if_neg hnodot, hname, if_pos rfl, if_neg ht]
  have hrepl : replaceList l idemPattern t.data = pre ++ t.data ++ post := by
    rw [hl, hpat]
    exact replaceList_splice (body ++ [rbrace]) t.data pre post hpre hpost
  have hrepl0 : replaceList l idemPattern [] = pre ++ [] ++ post := by
    rw [hl, hpat]
    exact replaceList_splice (body ++ [rbrace]) [] pre post hpre hpost
  rw [hrepl, hrepl0]
  have hlong : 63 < (pre ++ t.data ++ post).length := by
    simp only [List.length_append]
    omega
  rw [if_pos hlong]
  have hslice : pySliceTo t.data ((63 : Int) - ((pre ++ [] ++ post).length : Int))
      = t.data.take (63 - (pre.length + post.length)) := by
    simp only [pySliceTo, List.length_append, List.length_nil]
    have hnn : ¬ ((63 : Int) - ((pre.length + 0 + post.length : Nat) : Int) < 0) := by
      push_cast
      omega
    rw [if_neg hnn]
    congr 1
    push_cast
    omega
  rw [hslice]
  have hrepl2 : replaceList l idemPattern (t.data.take (63 - (pre.length + post.length)))
      = pre ++ t.data.take (63 - (pre.length + post.length)) ++ post := by
    rw [hl, hpat]
    exact replaceList_splice (body ++ [rbrace]) _ pre post hpre hpost
  rw [hrepl2]
  rfl

/-- C5 (amended) — when the template holds a single occurrence of the
idempotency placeholder, the rest of the string is at most 63
characters, and splicing the whole token would exceed 63 characters,
the result has length exactly 63. -/
theorem c5_truncated_result_length_63 (u : EntryList) (t : String) (pre post : List Char)
    (hpre : ∀ c ∈ pre, c ≠ lbrace) (hpost : ∀ c ∈ post, c ≠ lbrace)
    (ht : t ≠ "")
    (hfit : pre.length + post.length ≤ 63)
    (hover : 63 < pre.length + t.data.length + post.length) :
    ∃ r : String,
      update_dict_fn (Val.vstr ⟨pre ++ idemPattern ++ post⟩) u (some t) = Except.ok (Val.vstr r)
        ∧ r.length = 63 := by
  refine ⟨⟨pre ++ t.data.take (63 - (pre.length + post.length)) ++ post⟩,
    idem_truncation u t pre post hpre hpost ht hfit hover, ?_⟩
  show (pre ++ t.data.take (63 - (pre.length + post.length)) ++ post).length = 63
  simp only [List.length_append, List.length_take]
  omega

/-- C6 (amended) — the truncated portion spliced for the idempotency
placeholder is the token's leading characters: a prefix of the token of
length `63 - len(string-with-placeholder-removed)` (`token[:n]` keeps
the front and drops the tail). -/
theorem c6_truncation_keeps_token_front (u : EntryList) (t : String) (pre post : List Char)
    (hpre : ∀ c ∈ pre, c ≠ lbrace) (hpost : ∀ c ∈ post, c ≠ lbrace)
    (ht : t ≠ "")
    (hfit : pre.length + post.length ≤ 63)
    (hover : 63 < pre.length + t.data.length + post.length) :
    update_dict_fn (Val.vstr ⟨pre ++ idemPattern ++ post⟩) u (some t)
      = Except.ok (Val.vstr ⟨pre ++ t.data.take (63 - (pre.length + post.length)) ++ post⟩)
      ∧ t.data.take (63 - (pre.length + post.length))
          ++ t.data.drop (63 - (pre.length + post.length)) = t.data
      ∧ (t.data.take (63 - (pre.length + post.length))).length
          = 63 - (pre.length + post.length) := by
  refine ⟨idem_truncation u t pre post hpre hpost ht hfit hover,
    List.take_append_drop _ _, ?_⟩
  simp only [List.length_take]
  omega

mutual
theorem noDotted_fix_val : ∀ (v : Val) (u : EntryList), noDottedV v = true →
    update_dict_fn v u none = Except.ok v
  | Val.vnone, _, _ => rfl
  | Val.vint _, _, _ => rfl
  | Val.vstr s, u, h => by
      simp only [update_dict_fn]
      by_cases hb : lbrace ∈ s.data ∧ rbrace ∈ s.data
      · rw [if_pos hb]
        have hms : ∀ m ∈ findall s.data, dotChar ∉ m := by
          simpa [noDottedV, List.all_eq_true] using h
        exact processMatches_no_dotted u (findall s.data) s.data hms
      · rw [if_neg hb]
  | Val.vlist xs, u, h => by
      have h2 := noDotted_fix_elems xs u (by simpa [noDottedV] using h)
      simp only [update_dict_fn, h2]
  | Val.vdict m, u, h => by
      have h2 := noDotted_fix_entries m u (by simpa [noDottedV] using h)
      simp only [update_dict_fn, h2]

theorem noDotted_fix_elems : ∀ (xs : ValList) (u : EntryList), noDottedElems xs = true →
    updateElems xs u none = Except.ok xs
  | ValList.nil, _, _ => rfl
  | ValList.cons v rest, u, h => by
      have hsplit : noDottedV v = true ∧ noDottedElems rest = true := by
        simpa [noDottedElems, Bool.and_eq_true] using h
      have h1 := noDotted_fix_val v u hsplit.1
      have h2 := noDotted_fix_elems rest u hsplit.2
      simp only [updateElems, h1, h2]

theorem noDotted_fix_entries : ∀ (m : EntryList) (u : EntryList), noDottedEntries m = true →
    updateEntries m u none = Except.ok m
  | EntryList.nil, _, _ => rfl
  | EntryList.cons k v rest, u, h => by
      have hsplit : noDottedV v = true ∧ noDottedEntries rest = true := by
        simpa [noDottedEntries, Bool.and_eq_true] using h
      have h1 := noDotted_fix_val v u hsplit.1
      have h2 := noDotted_fix_entries rest u hsplit.2
      simp only [updateEntries, h1, h2]
end

/-- C8 — if substituting a mapping against itself yields a result with
no dotted placeholders left (the formal reading of "no
self-referential placeholders": one pass resolves everything and
introduces nothing new), then a second substitution pass is the
identity, so applying the substitution twice equals applying it
once. -/
theorem c8_substitution_idempotent (m r : EntryList)
    (_h1 : update_dict_fn (Val.vdict m) m none = Except.ok (Val.vdict r))
    (h2 : noDottedV (Val.vdict r) = true) :
    update_dict_fn (Val.vdict r) r none = Except.ok (Val.vdict r) :=
  noDotted_fix_val (Val.vdict r) r h2

theorem sdsEntries_eq_toList_map : ∀ m : EntryList,
    sdsEntries m = m.toList.map (fun kv => (kv.1, sorted_dict_str kv.2))
  | EntryList.nil => rfl
  | EntryList.cons k v rest => by
      simp [sdsEntries, EntryList.toList, sdsEntries_eq_toList_map rest]

/-- The strict comparison used for uniqueness of the sorted order. -/
def pairLt (a b : String × String) : Prop := pairLe a b ∧ a.1 ≠ b.1

theorem insertionSort_eq_of_perm_of_nodup_keys (l1 l2 : List (String × String))
    (hp : l1.Perm l2) (hn : (l1.map Prod.fst).Nodup) :
    List.insertionSort pairLe l1 = List.insertionSort pairLe l2 := by
  haveI htot : IsTotal (String × String) pairLe :=
    ⟨fun a b => lexLe_total a.1.data b.1.data⟩
  haveI htr : IsTrans (String × String) pairLe :=
    ⟨fun a b c h1 h2 => lexLe_trans _ _ _ h1 h2⟩
  haveI hanti : IsAntisymm (String × String) pairLt :=
    ⟨fun a b h1 h2 =>
      absurd (string_eq_of_data (lexLe_antisymm _ _ h1.1 h2.1)) h1.2⟩
  have s1 : List.Sorted pairLe (List.insertionSort pairLe l1) :=
    List.sorted_insertionSort pairLe l1
  have s2 : List.Sorted pairLe (List.insertionSort pairLe l2) :=
    List.sorted_insertionSort pairLe l2
  have hperm12 : (List.insertionSort pairLe l1).Perm (List.insertionSort pairLe l2) :=
    (List.perm_insertionSort pairLe l1).trans (hp.trans (List.perm_insertionSort pairLe l2).symm)
  have hn1 : ((List.insertionSort pairLe l1).map Prod.fst).Nodup :=
    (((List.perm_insertionSort pairLe l1).map Prod.fst).nodup_iff).mpr hn
  have hn2 : ((List.insertionSort pairLe l2).map Prod.fst).Nodup :=
    ((hperm12.map Prod.fst).nodup_iff).mp hn1
  have strengthen : ∀ l : List (String × String), List.Sorted pairLe l →
      (l.map Prod.fst).Nodup → List.Sorted pairLt l := by
    intro l hs hnd
    have hne : l.Pairwise (fun a b : String × String => a.1 ≠ b.1) :=
      (List.pairwise_map).mp hnd
    exact (hs.and hne).imp (fun h => ⟨h.1, h.2⟩)
  exact List.eq_of_perm_of_sorted hperm12 (strengthen _ s1 hn1) (strengthen _ s2 hn2)

/-- C4 (amended) — the canonical string of a mapping is invariant under
reordering of its key/value pairs (keys distinct, as in any Python
dict): `sorted(d.items())` orders the entries by key.  The invariance
does not extend to sequences, whose elements are ordered by their
insertion-order-sensitive Python string form. -/
theorem c4_mapping_reorder_invariant (m1 m2 : EntryList)
    (hp : m1.toList.Perm m2.toList)
    (hn : (m1.toList.map Prod.fst).Nodup) :
    sorted_dict_str (Val.vdict m1) = sorted_dict_str (Val.vdict m2) := by
  have e1 := sdsEntries_eq_toList_map m1
  have e2 := sdsEntries_eq_toList_map m2
  have hp2 : (sdsEntries m1).Perm (sdsEntries m2) := by
    rw [e1, e2]
    exact hp.map _
  have hn2 : ((sdsEntries m1).map Prod.fst).Nodup := by
    rw [e1, List.map_map]
    have hfst : (Prod.fst ∘ fun kv : String × Val => (kv.1, sorted_dict_str kv.2))
        = Prod.fst := funext fun kv => rfl
    rw [hfst]
    exact hn
  have hsort := insertionSort_eq_of_perm_of_nodup_keys _ _ hp2 hn2
  simp only [sorted_dict_str, hsort]

/-- C9 — when the decoded inputs carry no region entry, the call-level
region argument is absent and the constructor default is absent,
`_call` fails with the source's `ValueError` message, whatever the
config, the images, or the hash function: nothing is substituted and no
remote call is reached. -/
theorem c9_missing_region_raises (hashFn : String → String) (config : Val)
    (inputsMap : Option EntryList) (images : Option (List (String × String)))
    (hinputs : ∀ m, inputsMap = some m → entryLookup m "region" = none) :
    call_prepare hashFn none config inputsMap images none
      = Except.error "Region parameter is required." := by
  cases inputsMap with
  | none => rfl
  | some m =>
    have h := hinputs m rfl
    simp only [call_prepare, h]
    rfl

set_option maxRecDepth 1000000

/-- C1 — evaluating the code at the docstring's own example: the
single-identifier placeholder `\x7bendpoint_config_name\x7d` is not
substituted (only dotted paths and the idempotency token are), so the
config comes back unchanged, contradicting the documented result. -/
theorem c1_docstring_example_not_substituted :
    update_dict_fn
      (Val.vdict (EntryList.cons "EndpointConfigName"
        (Val.vstr "\x7bendpoint_config_name\x7d") EntryList.nil))
      (EntryList.cons "endpoint_config_name" (Val.vstr "my-endpoint-config") EntryList.nil)
      none
      = Except.ok (Val.vdict (EntryList.cons "EndpointConfigName"
          (Val.vstr "\x7bendpoint_config_name\x7d") EntryList.nil)) ∧
    (Val.vstr "\x7bendpoint_config_name\x7d") ≠ (Val.vstr "my-endpoint-config") :=
  ⟨rfl, by decide⟩

/-- C2 witness — the spec's own example: `substitute("\x7ba.missing\x7d",
\x7b"a": \x7b\x7d\x7d)` fails naming `missing` and the empty partial
structure. -/
theorem c2_witness :
    update_dict_fn (Val.vstr "\x7ba.missing\x7d")
      (EntryList.cons "a" (Val.vdict EntryList.nil) EntryList.nil) none
      = Except.error "Could not find the key missing in \x7b\x7d." := by
  have h := c2_missing_key_raises_naming_key
    (EntryList.cons "a" (Val.vdict EntryList.nil) EntryList.nil) none
    ["a"] "missing" [] (Val.vdict EntryList.nil)
    (by decide) (by decide) (by rfl) (by rfl)
  exact h

/-- C3 counterexample — an embedded dotted placeholder resolving to an
integer does not yield a spliced string: `str.replace` raises
`TypeError`, refuting the claim for non-string values. -/
theorem c3_counterexample :
    update_dict_fn (Val.vstr "pre-\x7ba.b\x7d-post")
      (EntryList.cons "a" (Val.vdict (EntryList.cons "b" (Val.vint 1) EntryList.nil))
        EntryList.nil) none
      = Except.error "replace() argument 2 must be str, not int" ∧
    update_dict_fn (Val.vstr "pre-\x7ba.b\x7d-post")
      (EntryList.cons "a" (Val.vdict (EntryList.cons "b" (Val.vint 1) EntryList.nil))
        EntryList.nil) none
      ≠ Except.ok (Val.vstr "pre-1-post") := by
  have h1 : update_dict_fn (Val.vstr "pre-\x7ba.b\x7d-post")
      (EntryList.cons "a" (Val.vdict (EntryList.cons "b" (Val.vint 1) EntryList.nil))
        EntryList.nil) none
      = Except.error "replace() argument 2 must be str, not int" := rfl
  refine ⟨h1, ?_⟩
  rw [h1]
  simp

/-- C3 witness — with a string-valued resolution the splice does happen
and the surrounding text is untouched. -/
theorem c3_witness :
    update_dict_fn (Val.vstr "pre-\x7ba.b\x7d-post")
      (EntryList.cons "a" (Val.vdict (EntryList.cons "b" (Val.vstr "X") EntryList.nil))
        EntryList.nil) none
      = Except.ok (Val.vstr "pre-X-post") := by
  have h := c3_embedded_string_value_splices
    (EntryList.cons "a" (Val.vdict (EntryList.cons "b" (Val.vstr "X") EntryList.nil))
      EntryList.nil) none
    ["a", "b"] "X" "pre-".data "-post".data
    (by decide) (by decide) (by decide) (by decide) (by decide) (by rfl)
  exact h

/-- C4 counterexample — two structures with the same mapping pairs (in
different insertion order) and the same sequence elements: the
canonical strings differ, because the sequence sort key is the
insertion-order-sensitive Python string form of the nested mapping. -/
theorem c4_counterexample :
    (EntryList.cons "a" (Val.vint 1) (EntryList.cons "b" (Val.vint 2)
        EntryList.nil)).toList.Perm
      (EntryList.cons "b" (Val.vint 2) (EntryList.cons "a" (Val.vint 1)
        EntryList.nil)).toList ∧
    sorted_dict_str (Val.vlist (ValList.cons
        (Val.vdict (EntryList.cons "a" (Val.vint 1) (EntryList.cons "b" (Val.vint 2)
          EntryList.nil)))
        (ValList.cons (Val.vstr "\x7b\x27az\x27") ValList.nil)))
      ≠ sorted_dict_str (Val.vlist (ValList.cons
        (Val.vdict (EntryList.cons "b" (Val.vint 2) (EntryList.cons "a" (Val.vint 1)
          EntryList.nil)))
        (ValList.cons (Val.vstr "\x7b\x27az\x27") ValList.nil))) :=
  ⟨by decide, by decide⟩

/-- C4 witness — reordering the pairs of a mapping leaves its canonical
string unchanged. -/
theorem c4_witness :
    sorted_dict_str (Val.vdict (EntryList.cons "b" (Val.vint 2)
        (EntryList.cons "a" (Val.vint 1) EntryList.nil)))
      = sorted_dict_str (Val.vdict (EntryList.cons "a" (Val.vint 1)
        (EntryList.cons "b" (Val.vint 2) EntryList.nil))) :=
  c4_mapping_reorder_invariant _ _ (by decide) (by decide)

/-- C5 counterexample — the string around the placeholder is already 70
characters, replacing with the full token gives length more than 63,
yet the result has length 70, not 63: the slice bound goes negative and
drops token characters from the end instead. -/
theorem c5_counterexample :
    63 < (replaceList (List.replicate 70 'x' ++ idemPattern) idemPattern "ab".data).length ∧
    update_dict_fn (Val.vstr ⟨List.replicate 70 'x' ++ idemPattern⟩) EntryList.nil (some "ab")
      = Except.ok (Val.vstr ⟨List.replicate 70 'x'⟩) ∧
    (⟨List.replicate 70 'x'⟩ : String).length ≠ 63 :=
  ⟨by decide, rfl, by decide⟩

/-- C5 witness — a 59-character remainder with a 10-character token
overflows and is truncated to exactly 63 characters. -/
theorem c5_witness :
    ∃ r : String,
      update_dict_fn
        (Val.vstr ⟨List.replicate 59 'a' ++ idemPattern ++ ([] : List Char)⟩)
        EntryList.nil (some "0123456789")
        = Except.ok (Val.vstr r) ∧ r.length = 63 :=
  c5_truncated_result_length_63 EntryList.nil "0123456789" (List.replicate 59 'a') []
    (by decide) (by decide) (by decide) (by decide) (by decide)

/-- C6 counterexample — truncating the token `0123456789` to 4
characters keeps its leading characters `0123`, not the trailing
characters `6789` the claim describes. -/
theorem c6_counterexample :
    update_dict_fn (Val.vstr ⟨List.replicate 59 'a' ++ idemPattern⟩) EntryList.nil
        (some "0123456789")
      = Except.ok (Val.vstr ⟨List.replicate 59 'a' ++ "0123".data⟩) ∧
    (⟨List.replicate 59 'a' ++ "0123".data⟩ : String)
      ≠ (⟨List.replicate 59 'a' ++ "6789".data⟩ : String) :=
  ⟨rfl, by decide⟩

/-- C6 witness — the inserted portion is the token's 4-character
prefix. -/
theorem c6_witness :
    update_dict_fn
      (Val.vstr ⟨List.replicate 59 'a' ++ idemPattern ++ ([] : List Char)⟩)
      EntryList.nil (some "0123456789")
      = Except.ok (Val.vstr ⟨List.replicate 59 'a'
          ++ "0123456789".data.take (63 - ((List.replicate 59 'a').length + ([] : List Char).length))
          ++ ([] : List Char)⟩)
      ∧ "0123456789".data.take (63 - ((List.replicate 59 'a').length + ([] : List Char).length))
          ++ "0123456789".data.drop (63 - ((List.replicate 59 'a').length + ([] : List Char).length))
          = "0123456789".data
      ∧ ("0123456789".data.take
            (63 - ((List.replicate 59 'a').length + ([] : List Char).length))).length
          = 63 - ((List.replicate 59 'a').length + ([] : List Char).length) :=
  c6_truncation_keeps_token_front EntryList.nil "0123456789" (List.replicate 59 'a') []
    (by decide) (by decide) (by decide) (by decide) (by decide)

/-- C7 witness — `"\x7ba.b\x7d"` resolving to the integer 42 yields the
integer itself, not a string. -/
theorem c7_witness :
    update_dict_fn (Val.vstr "\x7ba.b\x7d")
      (EntryList.cons "a" (Val.vdict (EntryList.cons "b" (Val.vint 42) EntryList.nil))
        EntryList.nil) none
      = Except.ok (Val.vint 42) := by
  have h := c7_whole_placeholder_returns_typed_value
    (EntryList.cons "a" (Val.vdict (EntryList.cons "b" (Val.vint 42) EntryList.nil))
      EntryList.nil) none ["a", "b"] (Val.vint 42)
    (by decide) (by decide) (by rfl)
  exact h

/-- C8 witness — a mapping whose dotted placeholder resolves in one
pass: the substituted result is a fixed point of a second pass. -/
theorem c8_witness :
    update_dict_fn
      (Val.vdict (EntryList.cons "x" (Val.vstr "hello")
        (EntryList.cons "a" (Val.vdict (EntryList.cons "b" (Val.vstr "hello") EntryList.nil))
          EntryList.nil)))
      (EntryList.cons "x" (Val.vstr "hello")
        (EntryList.cons "a" (Val.vdict (EntryList.cons "b" (Val.vstr "hello") EntryList.nil))
          EntryList.nil)) none
      = Except.ok (Val.vdict (EntryList.cons "x" (Val.vstr "hello")
        (EntryList.cons "a" (Val.vdict (EntryList.cons "b" (Val.vstr "hello") EntryList.nil))
          EntryList.nil))) :=
  c8_substitution_idempotent
    (EntryList.cons "x" (Val.vstr "\x7ba.b\x7d")
      (EntryList.cons "a" (Val.vdict (EntryList.cons "b" (Val.vstr "hello") EntryList.nil))
        EntryList.nil))
    (EntryList.cons "x" (Val.vstr "hello")
      (EntryList.cons "a" (Val.vdict (EntryList.cons "b" (Val.vstr "hello") EntryList.nil))
        EntryList.nil))
    (by rfl) (by rfl)

/-- C9 witness — inputs without a region entry, no region argument, no
constructor default: the call fails with the source's message. -/
theorem c9_witness :
    call_prepare (fun _ => "h") none (Val.vdict EntryList.nil)
      (some (EntryList.cons "endpoint_name" (Val.vstr "ep") EntryList.nil))
      (some [("primary", "img")]) none
      = Except.error "Region parameter is required." :=
  c9_missing_region_raises (fun _ => "h") (Val.vdict EntryList.nil)
    (some (EntryList.cons "endpoint_name" (Val.vstr "ep") EntryList.nil))
    (some [("primary", "img")])
    (fun m hm => by cases hm; rfl)
